import Mathlib

/-!
Shallow embedding of `lazy-map` (src/lib/mapping.ts).

The library builds "lazy records" behind a JS `Proxy`: a `ProxyTarget`
holds the field specification (`spec`), the construction-time `source`
value, a materialized `store` and a tombstone set (`deletedKeys`).  The
proxy `handlers` realize the accessor protocol.

Modelling choices, all taken from the source:
* JS objects (`spec`, `store`) are association lists keyed by `String`,
  preserving insertion order (JS string-key enumeration order); `k in obj`
  is own-key presence; assignment updates in place or appends.
* A JS value is `Option V` with `none` playing the role of `undefined`
  (reading an absent key of a plain object yields `undefined`).
* A compute function of the specification is `From → Except E (Option V)`:
  `Except.error` models a raised error, `Except.ok` a returned JS value.
  The `this`-context self-reference of compute functions is not modelled;
  compute functions are functions of the source value.
* `handlers.get` additionally returns the list of specification keys whose
  compute function it invoked, so that laziness/memoization claims about
  "number of invocations" are statable.  The computational content is
  otherwise a line-by-line transcription of the source handler.
* JS `Set` (`deletedKeys`) is a `List String` without duplicates kept in
  insertion order (`setAdd` appends when absent, `setDelete` filters).
-/

namespace LazyMap

/-- Keys deleted from a record are stored in a JS `Set`; we model it as an
insertion-ordered list queried by membership. -/
def setHas (s : List String) (k : String) : Bool :=
  s.contains k

/-- JS `Set.prototype.add`: append if not already present. -/
def setAdd (s : List String) (k : String) : List String :=
  if s.contains k then s else s ++ [k]

/-- JS `Set.prototype.delete`: remove the key. -/
def setDelete (s : List String) (k : String) : List String :=
  s.filter (fun x => x != k)

/-- Own-property lookup on a JS object modelled as an association list. -/
def objGet {α : Type} : List (String × α) → String → Option α
  | [], _ => none
  | (k', v') :: rest, k => if k' == k then some v' else objGet rest k

/-- JS `key in obj` (restricted to own keys, as the spec's accessor
protocol reads it). -/
def objHas {α : Type} (l : List (String × α)) (k : String) : Bool :=
  (objGet l k).isSome

/-- JS assignment `obj[k] = v`: update in place when the key exists,
otherwise append (JS insertion order for string keys). -/
def objSet {α : Type} : List (String × α) → String → α → List (String × α)
  | [], k, v => [(k, v)]
  | (k', v') :: rest, k, v =>
      if k' == k then (k', v) :: rest else (k', v') :: objSet rest k v

/-- JS `delete obj[k]`: remove the key. -/
def objDelete {α : Type} : List (String × α) → String → List (String × α)
  | [], _ => []
  | (k', v') :: rest, k =>
      if k' == k then objDelete rest k else (k', v') :: objDelete rest k

/-- `Object.keys`. -/
def objKeys {α : Type} (l : List (String × α)) : List String :=
  l.map (fun p => p.1)

/-- Reading `obj[k]` as an expression: `undefined` (= `none`) when the key
is absent.  Values themselves are JS values `Option V`, so the read
flattens. -/
def jsRead {V : Type} (store : List (String × Option V)) (k : String) : Option V :=
  match objGet store k with
  | some v => v
  | none => none

/-- `Array.from(new Set(l))`: deduplicate keeping first occurrences, with
`seen` the keys already emitted. -/
def dedupFirstAux (seen : List String) : List String → List String
  | [] => []
  | k :: rest =>
      if seen.contains k then dedupFirstAux seen rest
      else k :: dedupFirstAux (k :: seen) rest

/-- `Array.from(new Set(l))` starting from an empty set. -/
def dedupFirst (l : List String) : List String :=
  dedupFirstAux [] l

/-- `MappingSpec<From, To>`: field name to compute function.  A compute
function may raise (`Except.error`) or return a JS value. -/
def MappingSpec (From V E : Type) : Type :=
  List (String × (From → Except E (Option V)))

/-- `ProxyTarget<From, To>`: the per-record mutable state behind the proxy. -/
structure ProxyTarget (From V E : Type) where
  spec : MappingSpec From V E
  source : From
  store : List (String × Option V)
  deletedKeys : List String

/-- The property descriptor shape produced by `getOwnPropertyDescriptor`:
either a reflected store entry (carrying its value) or the synthetic
descriptor for an unmaterialized specification key. -/
structure PropertyDescriptor (V : Type) where
  value : Option (Option V)
  enumerable : Bool
  writable : Bool
  configurable : Bool

namespace handlers

variable {From V E : Type}

/-- Proxy `has` trap: `(key in target.store) || (key in target.spec)`. -/
def has (target : ProxyTarget From V E) (key : String) : Bool :=
  objHas target.store key || objHas target.spec key

/-- Proxy `get` trap.  Returns the result (an error when the compute
function raised), the updated target state, and the list of specification
keys whose compute function was invoked during this call. -/
def get (target : ProxyTarget From V E) (prop : String) :
    Except E (Option V) × ProxyTarget From V E × List String :=
  if setHas target.deletedKeys prop then
    (Except.ok none, target, [])
  else if !objHas target.store prop then
    match objGet target.spec prop with
    | some compute =>
        match compute target.source with
        | Except.error e => (Except.error e, target, [prop])
        | Except.ok v =>
            let store' := objSet target.store prop v
            (Except.ok (jsRead store' prop), { target with store := store' }, [prop])
    | none => (Except.ok (jsRead target.store prop), target, [])
  else
    (Except.ok (jsRead target.store prop), target, [])

/-- Proxy `set` trap: clear the tombstone, write the store, and return the
assigned value (the source returns the assignment expression). -/
def set (target : ProxyTarget From V E) (prop : String) (value : Option V) :
    ProxyTarget From V E × Option V :=
  ({ target with
      deletedKeys := setDelete target.deletedKeys prop,
      store := objSet target.store prop value }, value)

/-- Proxy `deleteProperty` trap: drop the store entry, tombstone the key,
report success. -/
def deleteProperty (target : ProxyTarget From V E) (prop : String) :
    ProxyTarget From V E × Bool :=
  ({ target with
      store := objDelete target.store prop,
      deletedKeys := setAdd target.deletedKeys prop }, true)

/-- Proxy `ownKeys` trap: spec keys then store keys, deduplicated, with
tombstoned keys filtered out. -/
def ownKeys (target : ProxyTarget From V E) : List String :=
  let allKeys := objKeys target.spec ++ objKeys target.store
  (dedupFirst allKeys).filter (fun key => !setHas target.deletedKeys key)

/-- Proxy `getOwnPropertyDescriptor` trap: reflect a store entry, else a
synthetic enumerable/writable/configurable descriptor for a spec key, else
`undefined`. -/
def getOwnPropertyDescriptor (target : ProxyTarget From V E) (prop : String) :
    Option (PropertyDescriptor V) :=
  if objHas target.store prop then
    some { value := some (jsRead target.store prop),
           enumerable := true, writable := true, configurable := true }
  else if objHas target.spec prop then
    some { value := none,
           enumerable := true, writable := true, configurable := true }
  else
    none

end handlers

/-- `proxyFactory`: allocate fresh per-record state. -/
def proxyFactory {From V E : Type} (spec : MappingSpec From V E) (source : From) :
    ProxyTarget From V E :=
  { spec := spec, source := source, store := [], deletedKeys := [] }

/-- `mapping`: the exported factory of factories. -/
def mapping {From V E : Type} (spec : MappingSpec From V E) :
    From → ProxyTarget From V E :=
  fun source => proxyFactory spec source

/-- One accessor-protocol operation, for reasoning about operation
sequences. -/
inductive Op (V : Type) where
  | get (k : String)
  | set (k : String) (v : Option V)
  | del (k : String)
deriving DecidableEq

/-- Apply one operation; return the new state and the list of invoked
specification keys. -/
def applyOp {From V E : Type} (t : ProxyTarget From V E) :
    Op V → ProxyTarget From V E × List String
  | Op.get k => ((handlers.get t k).2.1, (handlers.get t k).2.2)
  | Op.set k v => ((handlers.set t k v).1, [])
  | Op.del k => ((handlers.deleteProperty t k).1, [])

/-- Run a sequence of operations, accumulating invoked keys. -/
def run {From V E : Type} (t : ProxyTarget From V E) :
    List (Op V) → ProxyTarget From V E × List String
  | [] => (t, [])
  | op :: ops =>
      let step := applyOp t op
      let rest := run step.1 ops
      (rest.1, step.2 ++ rest.2)

/-- A record state reachable from a freshly constructed record by
accessor-protocol operations. -/
def Reachable {From V E : Type} (t : ProxyTarget From V E) : Prop :=
  ∃ (spec : MappingSpec From V E) (source : From) (ops : List (Op V)),
    t = (run (mapping spec source) ops).1

/-- The store/tombstone disjointness invariant, as an executable check. -/
def storeTombDisjoint {From V E : Type} (t : ProxyTarget From V E) : Bool :=
  t.store.all (fun p => !setHas t.deletedKeys p.1)

/-- A small concrete specification (two fields computing constants over a
unit source), used to instantiate the general theorems. -/
def exSpec : MappingSpec Unit Nat Unit :=
  [("f", fun _ => Except.ok (some 1)), ("g", fun _ => Except.ok (some 2))]

/-- A concrete specification whose only compute function raises. -/
def exSpecErr : MappingSpec Unit Nat String :=
  [("boom", fun _ => Except.error "boom")]

section PrimitiveLemmas

variable {α : Type}

@[simp] theorem objGet_objSet_self (l : List (String × α)) (k : String) (v : α) :
    objGet (objSet l k v) k = some v := by
  induction l with
  | nil => simp [objSet, objGet]
  | cons p rest ih =>
      obtain ⟨k', v'⟩ := p
      by_cases h : k' = k
      · simp [objSet, objGet, h]
      · simp [objSet, objGet, h, ih]

@[simp] theorem objGet_objSet_ne (l : List (String × α)) (k k' : String) (v : α)
    (h : k ≠ k') : objGet (objSet l k v) k' = objGet l k' := by
  induction l with
  | nil => simp [objSet, objGet, h]
  | cons p rest ih =>
      obtain ⟨k₀, v₀⟩ := p
      by_cases h₀ : k₀ = k
      · subst h₀; simp [objSet, objGet, h]
      · simp [objSet, objGet, h₀, ih]

@[simp] theorem objGet_objDelete_self (l : List (String × α)) (k : String) :
    objGet (objDelete l k) k = none := by
  induction l with
  | nil => simp [objDelete, objGet]
  | cons p rest ih =>
      obtain ⟨k₀, v₀⟩ := p
      by_cases h₀ : k₀ = k
      · simp [objDelete, h₀, ih]
      · simp [objDelete, objGet, h₀, ih]

@[simp] theorem objGet_objDelete_ne (l : List (String × α)) (k k' : String)
    (h : k ≠ k') : objGet (objDelete l k) k' = objGet l k' := by
  induction l with
  | nil => simp [objDelete]
  | cons p rest ih =>
      obtain ⟨k₀, v₀⟩ := p
      by_cases h₀ : k₀ = k
      · subst h₀
        have : ¬ (k₀ = k') := h
        simp [objDelete, objGet, this, ih]
      · simp [objDelete, objGet, h₀, ih]

theorem objHas_objSet (l : List (String × α)) (k k' : String) (v : α) :
    objHas (objSet l k v) k' = ((k == k') || objHas l k') := by
  by_cases h : k = k'
  · subst h; simp [objHas]
  · simp [objHas, objGet_objSet_ne l k k' v h, h]

theorem objHas_objDelete (l : List (String × α)) (k k' : String) :
    objHas (objDelete l k) k' = (!(k == k') && objHas l k') := by
  by_cases h : k = k'
  · subst h; simp [objHas]
  · simp [objHas, objGet_objDelete_ne l k k' h, h]

theorem objDelete_of_not_has (l : List (String × α)) (k : String)
    (h : objHas l k = false) : objDelete l k = l := by
  induction l with
  | nil => simp [objDelete]
  | cons p rest ih =>
      obtain ⟨k₀, v₀⟩ := p
      by_cases h₀ : k₀ = k
      · subst h₀; simp [objHas, objGet] at h
      · simp [objHas, objGet, h₀] at h
        simp [objDelete, h₀, ih (by simp [objHas, h])]

theorem objDelete_idem (l : List (String × α)) (k : String) :
    objDelete (objDelete l k) k = objDelete l k := by
  apply objDelete_of_not_has
  simp [objHas]

theorem objHas_iff_mem_objKeys (l : List (String × α)) (k : String) :
    objHas l k = true ↔ k ∈ objKeys l := by
  induction l with
  | nil => simp [objHas, objGet, objKeys]
  | cons p rest ih =>
      obtain ⟨k₀, v₀⟩ := p
      by_cases h₀ : k₀ = k
      · subst h₀; simp [objHas, objGet, objKeys]
      · have hif : objHas ((k₀, v₀) :: rest) k = objHas rest k := by
          simp [objHas, objGet, h₀]
        rw [hif, ih]
        simp [objKeys, Ne.symm h₀]

theorem setHas_setAdd (s : List String) (k k' : String) :
    setHas (setAdd s k) k' = ((k == k') || setHas s k') := by
  by_cases hc : k ∈ s
  · by_cases h : k = k'
    · subst h; simp [setHas, setAdd, hc]
    · simp [setHas, setAdd, hc, h]
  · by_cases h : k = k'
    · subst h; simp [setHas, setAdd, hc]
    · simp [setHas, setAdd, hc, h, Ne.symm h]

@[simp] theorem setHas_setAdd_self (s : List String) (k : String) :
    setHas (setAdd s k) k = true := by
  simp [setHas_setAdd]

theorem setAdd_idem (s : List String) (k : String) :
    setAdd (setAdd s k) k = setAdd s k := by
  by_cases hc : k ∈ s
  · simp [setAdd, hc]
  · simp [setAdd, hc, List.mem_append]

theorem setHas_setDelete (s : List String) (k k' : String) :
    setHas (setDelete s k) k' = (!(k == k') && setHas s k') := by
  by_cases h : k = k'
  · subst h
    simp [setHas, setDelete, List.mem_filter]
  · have h' : (k' != k) = true := by simp [bne]; exact Ne.symm h
    simp [setHas, setDelete, List.mem_filter, h, h']

@[simp] theorem setHas_setDelete_self (s : List String) (k : String) :
    setHas (setDelete s k) k = false := by
  simp [setHas_setDelete]

theorem jsRead_objSet_self {V : Type} (l : List (String × Option V)) (k : String)
    (v : Option V) : jsRead (objSet l k v) k = v := by
  simp [jsRead]

end PrimitiveLemmas

section HandlerLemmas

variable {From V E : Type}

@[simp] theorem objHas_objSet_self {α : Type} (l : List (String × α)) (k : String)
    (v : α) : objHas (objSet l k v) k = true := by
  simp [objHas]

theorem objGet_eq_none_of_not_has {α : Type} {l : List (String × α)} {k : String}
    (h : objHas l k = false) : objGet l k = none := by
  cases h' : objGet l k with
  | none => rfl
  | some v => rw [objHas, h'] at h; simp at h

theorem jsRead_of_not_has {V : Type} {l : List (String × Option V)} {k : String}
    (h : objHas l k = false) : jsRead l k = none := by
  simp [jsRead, objGet_eq_none_of_not_has h]

/-- `get` on a tombstoned key: absent, no state change, no compute call. -/
theorem get_of_tombstoned {t : ProxyTarget From V E} {p : String}
    (h : setHas t.deletedKeys p = true) :
    handlers.get t p = (Except.ok none, t, []) := by
  simp [handlers.get, h]

/-- `get` on a materialized key: the stored value, no state change, no
compute call. -/
theorem get_of_stored {t : ProxyTarget From V E} {p : String}
    (h1 : setHas t.deletedKeys p = false) (h2 : objHas t.store p = true) :
    handlers.get t p = (Except.ok (jsRead t.store p), t, []) := by
  simp [handlers.get, h1, h2]

/-- `get` on a key that is neither tombstoned, stored, nor specified:
absent, no state change, no compute call. -/
theorem get_of_unset {t : ProxyTarget From V E} {p : String}
    (h1 : setHas t.deletedKeys p = false) (h2 : objHas t.store p = false)
    (h3 : objGet t.spec p = none) :
    handlers.get t p = (Except.ok none, t, []) := by
  simp [handlers.get, h1, h2, h3, jsRead_of_not_has h2]

/-- `get` that triggers a successful computation: memoizes and returns the
computed value, invoking the compute function once. -/
theorem get_of_compute_ok {t : ProxyTarget From V E} {p : String}
    {c : From → Except E (Option V)} {v : Option V}
    (h1 : setHas t.deletedKeys p = false) (h2 : objHas t.store p = false)
    (h3 : objGet t.spec p = some c) (h4 : c t.source = Except.ok v) :
    handlers.get t p
      = (Except.ok v, { t with store := objSet t.store p v }, [p]) := by
  simp [handlers.get, h1, h2, h3, h4, jsRead_objSet_self]

/-- `get` whose computation raises: the error propagates and the state is
unchanged. -/
theorem get_of_compute_error {t : ProxyTarget From V E} {p : String}
    {c : From → Except E (Option V)} {e : E}
    (h1 : setHas t.deletedKeys p = false) (h2 : objHas t.store p = false)
    (h3 : objGet t.spec p = some c) (h4 : c t.source = Except.error e) :
    handlers.get t p = (Except.error e, t, [p]) := by
  simp [handlers.get, h1, h2, h3, h4]

/-- `get` never invokes a compute function other than the requested key's. -/
theorem get_invoked_cases (t : ProxyTarget From V E) (g : String) :
    (handlers.get t g).2.2 = [] ∨ (handlers.get t g).2.2 = [g] := by
  unfold handlers.get
  split
  · exact Or.inl rfl
  · split
    · split
      · split
        · exact Or.inr rfl
        · exact Or.inr rfl
      · exact Or.inl rfl
    · exact Or.inl rfl

/-- `get` never changes `spec`, `source` or `deletedKeys`. -/
theorem get_preserves (t : ProxyTarget From V E) (p : String) :
    (handlers.get t p).2.1.spec = t.spec ∧ (handlers.get t p).2.1.source = t.source ∧
      (handlers.get t p).2.1.deletedKeys = t.deletedKeys := by
  unfold handlers.get
  split
  · exact ⟨rfl, rfl, rfl⟩
  · split
    · split
      · split
        · exact ⟨rfl, rfl, rfl⟩
        · exact ⟨rfl, rfl, rfl⟩
      · exact ⟨rfl, rfl, rfl⟩
    · exact ⟨rfl, rfl, rfl⟩

/-- `get` on a materialized key leaves the whole state untouched and makes
no compute call. -/
theorem get_of_stored_state {t : ProxyTarget From V E} {p : String}
    (h : objHas t.store p = true) :
    (handlers.get t p).2.1 = t ∧ (handlers.get t p).2.2 = [] := by
  by_cases h1 : setHas t.deletedKeys p = true
  · rw [get_of_tombstoned h1]; exact ⟨rfl, rfl⟩
  · rw [get_of_stored (by simpa using h1) h]; exact ⟨rfl, rfl⟩

/-- A key already materialized stays materialized across `get`. -/
theorem get_store_mono {t : ProxyTarget From V E} {f : String} (p : String)
    (h : objHas t.store f = true) :
    objHas (handlers.get t p).2.1.store f = true := by
  unfold handlers.get
  split
  · exact h
  · split
    · split
      · split
        · exact h
        · simp [objHas_objSet, h]
      · exact h
    · exact h

end HandlerLemmas

section InvariantLemmas

variable {From V E : Type}

/-- The store/tombstone disjointness invariant as a proposition. -/
def DisjointInv (t : ProxyTarget From V E) : Prop :=
  ∀ k : String, objHas t.store k = true → setHas t.deletedKeys k = false

theorem objHas_iff_exists_mem {α : Type} (l : List (String × α)) (k : String) :
    objHas l k = true ↔ ∃ p ∈ l, p.1 = k := by
  rw [objHas_iff_mem_objKeys]
  simp [objKeys, List.mem_map]

theorem storeTombDisjoint_iff (t : ProxyTarget From V E) :
    storeTombDisjoint t = true ↔ DisjointInv t := by
  rw [storeTombDisjoint, List.all_eq_true]
  constructor
  · intro h k hk
    obtain ⟨p, hp, hpk⟩ := (objHas_iff_exists_mem t.store k).mp hk
    have := h p hp
    rw [hpk] at this
    simpa using this
  · intro h p hp
    have hk : objHas t.store p.1 = true :=
      (objHas_iff_exists_mem t.store p.1).mpr ⟨p, hp, rfl⟩
    simpa using h p.1 hk

theorem get_preserves_disjoint (t : ProxyTarget From V E) (p : String)
    (hd : DisjointInv t) : DisjointInv (handlers.get t p).2.1 := by
  unfold handlers.get
  split
  · exact hd
  next h1 =>
    split
    · split
      next c hc =>
        split
        · exact hd
        next v hv =>
          intro k hk
          by_cases hkp : k = p
          · subst hkp
            simpa using h1
          · apply hd
            rw [objHas_objSet] at hk
            have hne : ¬ p = k := fun hh => hkp hh.symm
            have : (p == k) = false := by simp [hne]
            simpa [this] using hk
      · exact hd
    · exact hd

theorem set_preserves_disjoint (t : ProxyTarget From V E) (p : String) (v : Option V)
    (hd : DisjointInv t) : DisjointInv (handlers.set t p v).1 := by
  intro k hk
  simp only [handlers.set] at hk ⊢
  by_cases hkp : k = p
  · subst hkp; simp
  · have hne' : ¬ p = k := fun hh => hkp hh.symm
    have hne : (p == k) = false := by simp [hne']
    rw [objHas_objSet, hne] at hk
    rw [setHas_setDelete, hne]
    simpa using hd k (by simpa using hk)

theorem delete_preserves_disjoint (t : ProxyTarget From V E) (p : String)
    (hd : DisjointInv t) : DisjointInv (handlers.deleteProperty t p).1 := by
  intro k hk
  simp only [handlers.deleteProperty] at hk ⊢
  rw [objHas_objDelete] at hk
  by_cases hkp : k = p
  · subst hkp; simp at hk
  · have hne' : ¬ p = k := fun hh => hkp hh.symm
    have hne : (p == k) = false := by simp [hne']
    rw [hne] at hk
    rw [setHas_setAdd, hne]
    simpa using hd k (by simpa using hk)

theorem applyOp_preserves_disjoint (t : ProxyTarget From V E) (op : Op V)
    (hd : DisjointInv t) : DisjointInv (applyOp t op).1 := by
  cases op with
  | get k => exact get_preserves_disjoint t k hd
  | set k v => exact set_preserves_disjoint t k v hd
  | del k => exact delete_preserves_disjoint t k hd

theorem run_preserves_disjoint (ops : List (Op V)) (t : ProxyTarget From V E)
    (hd : DisjointInv t) : DisjointInv (run t ops).1 := by
  induction ops generalizing t with
  | nil => exact hd
  | cons op ops ih => exact ih (applyOp t op).1 (applyOp_preserves_disjoint t op hd)

end InvariantLemmas

section CountLemmas

variable {From V E : Type}

/-- Once a field is materialized, a run without a deletion of that field
never invokes its compute function. -/
theorem run_count_zero (f : String) (ops : List (Op V)) (t : ProxyTarget From V E)
    (hs : objHas t.store f = true) (hnd : Op.del f ∉ ops) :
    (run t ops).2.count f = 0 := by
  induction ops generalizing t with
  | nil => simp [run]
  | cons op ops ih =>
      have hnd' : Op.del f ∉ ops := fun hh => hnd (List.mem_cons_of_mem _ hh)
      have hne : op ≠ Op.del f := fun hh => hnd (hh ▸ List.mem_cons_self _ _)
      cases op with
      | get p =>
          by_cases hpf : p = f
          · subst hpf
            obtain ⟨hst, hinv⟩ := get_of_stored_state hs
            simp only [run, applyOp, List.count_append, hst, hinv]
            simpa using ih t hs hnd'
          · have h0 : (handlers.get t p).2.2.count f = 0 := by
              rcases get_invoked_cases t p with h' | h' <;> rw [h']
              · simp
              · simp [List.count_cons, hpf]
            have hmono := get_store_mono (t := t) p hs
            simp only [run, applyOp, List.count_append, h0]
            simpa using ih _ hmono hnd'
      | set p v =>
          have hs' : objHas (handlers.set t p v).1.store f = true := by
            simp [handlers.set, objHas_objSet, hs]
          simp only [run, applyOp, List.count_append]
          simpa using ih _ hs' hnd'
      | del p =>
          have hpf : (p == f) = false := by
            have : ¬ p = f := fun hh => hne (by rw [hh])
            simp [this]
          have hs' : objHas (handlers.deleteProperty t p).1.store f = true := by
            simp [handlers.deleteProperty, objHas_objDelete, hpf, hs]
          simp only [run, applyOp, List.count_append]
          simpa using ih _ hs' hnd'

/-- Between two deletions of a field (here: along any run containing no
deletion of it, from any state whose compute function for the field
returns normally), the compute function is invoked at most once. -/
theorem run_count_le_one (f : String) (ops : List (Op V)) (t : ProxyTarget From V E)
    (htot : ∀ c, objGet t.spec f = some c → ∃ v, c t.source = Except.ok v)
    (hnd : Op.del f ∉ ops) :
    (run t ops).2.count f ≤ 1 := by
  induction ops generalizing t with
  | nil => simp [run]
  | cons op ops ih =>
      have hnd' : Op.del f ∉ ops := fun hh => hnd (List.mem_cons_of_mem _ hh)
      have hne : op ≠ Op.del f := fun hh => hnd (hh ▸ List.mem_cons_self _ _)
      have hpres : ∀ t' : ProxyTarget From V E, t'.spec = t.spec →
          t'.source = t.source →
          ∀ c, objGet t'.spec f = some c → ∃ v, c t'.source = Except.ok v := by
        intro t' h1 h2 c hc
        rw [h1] at hc
        rw [h2]
        exact htot c hc
      cases op with
      | get p =>
          by_cases hpf : p = f
          · subst hpf
            by_cases h1 : setHas t.deletedKeys p = true
            · have hg := get_of_tombstoned h1
              simp only [run, applyOp, List.count_append, hg]
              simpa using ih t htot hnd'
            · have h1' : setHas t.deletedKeys p = false := by simpa using h1
              by_cases h2 : objHas t.store p = true
              · obtain ⟨hst, hinv⟩ := get_of_stored_state h2
                simp only [run, applyOp, List.count_append, hst, hinv]
                simpa using ih t htot hnd'
              · have h2' : objHas t.store p = false := by simpa using h2
                cases hc : objGet t.spec p with
                | none =>
                    have hg := get_of_unset h1' h2' hc
                    simp only [run, applyOp, List.count_append, hg]
                    simpa using ih t htot hnd'
                | some c =>
                    obtain ⟨v, hv⟩ := htot c hc
                    have hg := get_of_compute_ok h1' h2' hc hv
                    have hs1 : objHas
                        ({ t with store := objSet t.store p v } :
                          ProxyTarget From V E).store p = true := by
                      simp
                    have hz := run_count_zero p ops _ hs1 hnd'
                    simp only [run, applyOp, List.count_append, hg]
                    simp [hz, List.count_cons]
          · have h0 : (handlers.get t p).2.2.count f = 0 := by
              rcases get_invoked_cases t p with h' | h' <;> rw [h']
              · simp
              · simp [List.count_cons, hpf]
            obtain ⟨hsp, hsrc, _⟩ := get_preserves t p
            simp only [run, applyOp, List.count_append, h0]
            simpa using ih _ (hpres _ hsp hsrc) hnd'
      | set p v =>
          simp only [run, applyOp, List.count_append]
          simpa using ih (handlers.set t p v).1 (hpres _ rfl rfl) hnd'
      | del p =>
          simp only [run, applyOp, List.count_append]
          simpa using ih (handlers.deleteProperty t p).1 (hpres _ rfl rfl) hnd'

end CountLemmas

section DedupLemmas

theorem mem_dedupFirstAux (l : List String) (seen : List String) (k : String) :
    k ∈ dedupFirstAux seen l ↔ (k ∈ l ∧ k ∉ seen) := by
  induction l generalizing seen with
  | nil => simp [dedupFirstAux]
  | cons k₀ rest ih =>
      by_cases hc : k₀ ∈ seen
      · have he : dedupFirstAux seen (k₀ :: rest) = dedupFirstAux seen rest := by
          simp [dedupFirstAux, hc]
        rw [he, ih]
        constructor
        · rintro ⟨h1, h2⟩
          exact ⟨List.mem_cons_of_mem _ h1, h2⟩
        · rintro ⟨h1, h2⟩
          rcases List.mem_cons.mp h1 with rfl | h1
          · exact absurd hc h2
          · exact ⟨h1, h2⟩
      · have he : dedupFirstAux seen (k₀ :: rest)
            = k₀ :: dedupFirstAux (k₀ :: seen) rest := by
          simp [dedupFirstAux, hc]
        rw [he, List.mem_cons, ih]
        by_cases hk : k = k₀
        · subst hk
          simp [hc]
        · simp [hk, List.mem_cons]

theorem nodup_dedupFirstAux (l : List String) (seen : List String) :
    (dedupFirstAux seen l).Nodup := by
  induction l generalizing seen with
  | nil => simp [dedupFirstAux]
  | cons k₀ rest ih =>
      by_cases hc : k₀ ∈ seen
      · have he : dedupFirstAux seen (k₀ :: rest) = dedupFirstAux seen rest := by
          simp [dedupFirstAux, hc]
        rw [he]
        exact ih seen
      · have he : dedupFirstAux seen (k₀ :: rest)
            = k₀ :: dedupFirstAux (k₀ :: seen) rest := by
          simp [dedupFirstAux, hc]
        rw [he, List.nodup_cons]
        refine ⟨?_, ih (k₀ :: seen)⟩
        intro hmem
        rw [mem_dedupFirstAux] at hmem
        exact hmem.2 (List.mem_cons_self _ _)

theorem dedupFirstAux_congr (l : List String) (s₁ s₂ : List String)
    (h : ∀ x, x ∈ s₁ ↔ x ∈ s₂) : dedupFirstAux s₁ l = dedupFirstAux s₂ l := by
  induction l generalizing s₁ s₂ with
  | nil => rfl
  | cons k₀ rest ih =>
      by_cases hc : k₀ ∈ s₁
      · have hc₂ : k₀ ∈ s₂ := (h k₀).mp hc
        have he₁ : dedupFirstAux s₁ (k₀ :: rest) = dedupFirstAux s₁ rest := by
          simp [dedupFirstAux, hc]
        have he₂ : dedupFirstAux s₂ (k₀ :: rest) = dedupFirstAux s₂ rest := by
          simp [dedupFirstAux, hc₂]
        rw [he₁, he₂]
        exact ih s₁ s₂ h
      · have hc₂ : k₀ ∉ s₂ := fun hh => hc ((h k₀).mpr hh)
        have he₁ : dedupFirstAux s₁ (k₀ :: rest)
            = k₀ :: dedupFirstAux (k₀ :: s₁) rest := by
          simp [dedupFirstAux, hc]
        have he₂ : dedupFirstAux s₂ (k₀ :: rest)
            = k₀ :: dedupFirstAux (k₀ :: s₂) rest := by
          simp [dedupFirstAux, hc₂]
        rw [he₁, he₂, ih (k₀ :: s₁) (k₀ :: s₂) (by intro x; simp [List.mem_cons, h x])]

theorem dedupFirstAux_append (a b seen : List String) :
    dedupFirstAux seen (a ++ b)
      = dedupFirstAux seen a ++ dedupFirstAux (a ++ seen) b := by
  induction a generalizing seen with
  | nil => simp [dedupFirstAux]
  | cons k₀ a' ih =>
      by_cases hc : k₀ ∈ seen
      · have he : ∀ l, dedupFirstAux seen (k₀ :: l) = dedupFirstAux seen l :=
          fun l => by simp [dedupFirstAux, hc]
        rw [List.cons_append, he, he, ih]
        congr 1
        apply dedupFirstAux_congr
        intro x
        simp only [List.cons_append, List.mem_append, List.mem_cons]
        constructor
        · tauto
        · rintro (rfl | h | h)
          · exact Or.inr hc
          · exact Or.inl h
          · exact Or.inr h
      · have he : dedupFirstAux seen (k₀ :: (a' ++ b))
            = k₀ :: dedupFirstAux (k₀ :: seen) (a' ++ b) := by
          simp [dedupFirstAux, hc]
        have he' : dedupFirstAux seen (k₀ :: a')
            = k₀ :: dedupFirstAux (k₀ :: seen) a' := by
          simp [dedupFirstAux, hc]
        rw [List.cons_append, he, he', ih (k₀ :: seen), List.cons_append]
        congr 2
        apply dedupFirstAux_congr
        intro x
        simp [List.mem_append, List.mem_cons]
        tauto

end DedupLemmas

section ClaimTheorems

variable {From V E : Type}

/-- Claim C2: `set(f, v)` never signals an error (the handler is a total
function with no error outcome in its type), removes `f` from the
tombstone set, writes `v` into the store (for any JS value `v`, including
falsy ones and `undefined` = `none` — presence in the store is recorded
independently of the value), and returns the written value.  `spec` and
`source` are untouched. -/
theorem set_always_succeeds (t : ProxyTarget From V E) (f : String) (v : Option V) :
    (handlers.set t f v).2 = v ∧
    (handlers.set t f v).1.deletedKeys = setDelete t.deletedKeys f ∧
    setHas (handlers.set t f v).1.deletedKeys f = false ∧
    objGet (handlers.set t f v).1.store f = some v ∧
    (handlers.set t f v).1.spec = t.spec ∧
    (handlers.set t f v).1.source = t.source := by
  refine ⟨rfl, rfl, ?_, ?_, rfl, rfl⟩
  · simp [handlers.set]
  · simp [handlers.set]

/-- Claim C5: `delete(f)` always reports success, is idempotent, and a
subsequent `get(f)` returns absent without invoking any compute function —
a previously memoized or assigned value is never returned after
deletion. -/
theorem delete_succeeds_idempotent_suppresses (t : ProxyTarget From V E) (f : String) :
    (handlers.deleteProperty t f).2 = true ∧
    (handlers.deleteProperty (handlers.deleteProperty t f).1 f).1
      = (handlers.deleteProperty t f).1 ∧
    (handlers.get (handlers.deleteProperty t f).1 f).1 = Except.ok none ∧
    (handlers.get (handlers.deleteProperty t f).1 f).2.2 = [] := by
  have htomb : setHas (handlers.deleteProperty t f).1.deletedKeys f = true := by
    simp [handlers.deleteProperty]
  refine ⟨rfl, ?_, ?_, ?_⟩
  · simp [handlers.deleteProperty, objDelete_idem, setAdd_idem]
  · rw [get_of_tombstoned htomb]
  · rw [get_of_tombstoned htomb]

/-- Claim C6: `set(f, v)` followed by `get(f)` returns `v` without
invoking any compute function, even when `f` is a specification key; and
`delete(f)` followed by `set(f, v)` followed by `get(f)` also returns `v`
(the write clears the tombstone and restores the field). -/
theorem set_overrides_and_restores (t : ProxyTarget From V E) (f : String) (v : Option V) :
    (handlers.get (handlers.set t f v).1 f).1 = Except.ok v ∧
    (handlers.get (handlers.set t f v).1 f).2.2 = [] ∧
    (handlers.get (handlers.set (handlers.deleteProperty t f).1 f v).1 f).1
      = Except.ok v ∧
    (handlers.get (handlers.set (handlers.deleteProperty t f).1 f v).1 f).2.2 = [] := by
  have key : ∀ t' : ProxyTarget From V E,
      (handlers.get (handlers.set t' f v).1 f).1 = Except.ok v ∧
        (handlers.get (handlers.set t' f v).1 f).2.2 = [] := by
    intro t'
    have h1 : setHas (handlers.set t' f v).1.deletedKeys f = false := by
      simp [handlers.set]
    have h2 : objHas (handlers.set t' f v).1.store f = true := by
      simp [handlers.set]
    rw [get_of_stored h1 h2]
    refine ⟨?_, rfl⟩
    simp [handlers.set, jsRead_objSet_self]
  exact ⟨(key t).1, (key t).2, (key (handlers.deleteProperty t f).1).1,
    (key (handlers.deleteProperty t f).1).2⟩

/-- Claim C7: for a specification key `k`, after `delete(k)` the record
still reports `has(k) = true` and `describe(k)` returns the synthetic
enumerable/writable/configurable descriptor with no materialized value
(`describe` is a pure function that invokes no compute function by
construction), even though `get(k)` returns absent without computing;
moreover `has` and `describe` read no part of the tombstone set: they are
invariant under arbitrary replacement of `deletedKeys`. -/
theorem has_describe_ignore_tombstones (t : ProxyTarget From V E) (k : String)
    (h : objHas t.spec k = true) :
    handlers.has (handlers.deleteProperty t k).1 k = true ∧
    handlers.getOwnPropertyDescriptor (handlers.deleteProperty t k).1 k
      = some { value := none, enumerable := true, writable := true,
               configurable := true } ∧
    (handlers.get (handlers.deleteProperty t k).1 k).1 = Except.ok none ∧
    (handlers.get (handlers.deleteProperty t k).1 k).2.2 = [] ∧
    (∀ (d : List String) (k' : String),
      handlers.has { t with deletedKeys := d } k' = handlers.has t k') ∧
    (∀ (d : List String) (k' : String),
      handlers.getOwnPropertyDescriptor { t with deletedKeys := d } k'
        = handlers.getOwnPropertyDescriptor t k') := by
  have htomb : setHas (handlers.deleteProperty t k).1.deletedKeys k = true := by
    simp [handlers.deleteProperty]
  have hstore : objHas (handlers.deleteProperty t k).1.store k = false := by
    simp [handlers.deleteProperty, objHas_objDelete]
  refine ⟨?_, ?_, ?_, ?_, fun d k' => rfl, fun d k' => rfl⟩
  · simp [handlers.has, handlers.deleteProperty, h]
  · simp only [handlers.getOwnPropertyDescriptor, hstore]
    simp [handlers.deleteProperty, h]
  · rw [get_of_tombstoned htomb]
  · rw [get_of_tombstoned htomb]

/-- Claim C9: a compute function that raises during `get(f)` propagates
its error unchanged, leaves the whole record state (store and tombstones)
untouched — in particular nothing is memoized for `f` — and a subsequent
`get(f)` invokes the compute function again. -/
theorem compute_error_propagates (t : ProxyTarget From V E) (f : String)
    (c : From → Except E (Option V)) (e : E)
    (h1 : setHas t.deletedKeys f = false) (h2 : objHas t.store f = false)
    (h3 : objGet t.spec f = some c) (h4 : c t.source = Except.error e) :
    handlers.get t f = (Except.error e, t, [f]) ∧
    (handlers.get (handlers.get t f).2.1 f).2.2 = [f] := by
  have hg := get_of_compute_error h1 h2 h3 h4
  refine ⟨hg, ?_⟩
  rw [hg]
  rw [show ((Except.error e : Except E (Option V)), t, [f]).2.1 = t from rfl, hg]

/-- Claim C9 witness at a concrete raising specification. -/
theorem compute_error_propagates_witness :
    (setHas (mapping exSpecErr ()).deletedKeys "boom" = false ∧
      objHas (mapping exSpecErr ()).store "boom" = false ∧
      objGet (mapping exSpecErr ()).spec "boom"
        = some (fun _ => Except.error "boom") ∧
      (fun (_ : Unit) => (Except.error "boom" : Except String (Option Nat))) ()
        = Except.error "boom") ∧
    (handlers.get (mapping exSpecErr ()) "boom"
        = (Except.error "boom", mapping exSpecErr (), ["boom"]) ∧
      (handlers.get (handlers.get (mapping exSpecErr ()) "boom").2.1 "boom").2.2
        = ["boom"]) :=
  ⟨⟨rfl, rfl, rfl, rfl⟩,
    compute_error_propagates (mapping exSpecErr ()) "boom"
      (fun _ => Except.error "boom") "boom" rfl rfl rfl rfl⟩

/-- Claim C4: construction is lazy — a fresh record has an empty store and
empty tombstone set and construction applies no compute function (the
factory and constructor build the state record only) — and `get` on a
field `g` never invokes the compute function of a different field `f`, in
any state. -/
theorem construction_and_get_lazy (spec : MappingSpec From V E) (source : From)
    (f g : String) (h : g ≠ f) :
    (mapping spec source).store = [] ∧ (mapping spec source).deletedKeys = [] ∧
    ∀ t : ProxyTarget From V E, f ∉ (handlers.get t g).2.2 := by
  refine ⟨rfl, rfl, fun t => ?_⟩
  rcases get_invoked_cases t g with h' | h' <;> rw [h']
  · simp
  · simp [Ne.symm h]

/-- Claim C4 witness at the concrete two-field specification. -/
theorem construction_and_get_lazy_witness :
    ("g" : String) ≠ "f" ∧
    ((mapping exSpec ()).store = [] ∧ (mapping exSpec ()).deletedKeys = [] ∧
      ∀ t : ProxyTarget Unit Nat Unit, "f" ∉ (handlers.get t "g").2.2) :=
  ⟨by decide, construction_and_get_lazy exSpec () "f" "g" (by decide)⟩

/-- Claim C1 counterexample: with the concrete specification `exSpec`,
deleting `"f"` and then reading it invokes no compute function and yields
absent — the read does not re-trigger a lazy computation, contradicting
the claim that a get after delete re-invokes the compute function rather
than returning absent. -/
theorem delete_then_get_no_recompute_cex :
    (handlers.get (handlers.deleteProperty (mapping exSpec ()) "f").1 "f").2.2 = []
      ∧ (handlers.get (handlers.deleteProperty (mapping exSpec ()) "f").1 "f").1
          = Except.ok none := by
  exact ⟨rfl, rfl⟩

/-- Claim C1 (amended): after `delete(f)`, a subsequent `get(f)` returns
absent and invokes no compute function, leaving the state unchanged; the
tombstone persists (the field is not compute-eligible after deletion) and
is cleared only by a later `set(f, v)`. -/
theorem delete_then_get_absent_not_recomputed (t : ProxyTarget From V E)
    (f : String) (v : Option V) :
    (handlers.get (handlers.deleteProperty t f).1 f).1 = Except.ok none ∧
    (handlers.get (handlers.deleteProperty t f).1 f).2.2 = [] ∧
    (handlers.get (handlers.deleteProperty t f).1 f).2.1
      = (handlers.deleteProperty t f).1 ∧
    setHas (handlers.deleteProperty t f).1.deletedKeys f = true ∧
    setHas (handlers.set (handlers.deleteProperty t f).1 f v).1.deletedKeys f
      = false := by
  have htomb : setHas (handlers.deleteProperty t f).1.deletedKeys f = true := by
    simp [handlers.deleteProperty]
  have hg := get_of_tombstoned htomb
  refine ⟨?_, ?_, ?_, htomb, ?_⟩
  · rw [hg]
  · rw [hg]
  · rw [hg]
  · simp [handlers.set]

/-- Claim C3: for a specification field `f` whose compute function
returns normally on the source, two successive `get(f)` calls on a fresh
record return the computed value both times while invoking the compute
function exactly once across the two calls; more generally, along any
operation sequence containing no deletion of `f` — run from any state
carrying that specification and source — `f`'s compute function is
invoked at most once. -/
theorem get_memoizes (spec : MappingSpec From V E) (source : From) (f : String)
    (c : From → Except E (Option V)) (v : Option V)
    (hc : objGet spec f = some c) (hv : c source = Except.ok v) :
    (handlers.get (mapping spec source) f).1 = Except.ok v ∧
    (handlers.get (handlers.get (mapping spec source) f).2.1 f).1 = Except.ok v ∧
    (handlers.get (mapping spec source) f).2.2
      ++ (handlers.get (handlers.get (mapping spec source) f).2.1 f).2.2 = [f] ∧
    (∀ (t : ProxyTarget From V E) (ops : List (Op V)),
      t.spec = spec → t.source = source → Op.del f ∉ ops →
      (run t ops).2.count f ≤ 1) := by
  have h1 : setHas (mapping spec source).deletedKeys f = false := by
    simp [mapping, proxyFactory, setHas]
  have h2 : objHas (mapping spec source).store f = false := by
    simp [mapping, proxyFactory, objHas, objGet]
  have hg := get_of_compute_ok (t := mapping spec source) h1 h2 hc hv
  have t1eq : (handlers.get (mapping spec source) f).2.1
      = { mapping spec source with
            store := objSet (mapping spec source).store f v } := by
    rw [hg]
  have hsecond := get_of_stored
    (t := { mapping spec source with
              store := objSet (mapping spec source).store f v })
    (p := f) h1 (by simp)
  refine ⟨by rw [hg], ?_, ?_, ?_⟩
  · rw [t1eq, hsecond]
    simp [jsRead_objSet_self]
  · rw [t1eq, hsecond]
    simp [hg]
  · intro t ops h1t h2t hnd
    apply run_count_le_one f ops t ?_ hnd
    intro c' hc'
    rw [h1t, hc] at hc'
    obtain rfl : c = c' := Option.some.inj hc'
    rw [h2t]
    exact ⟨v, hv⟩

/-- Claim C3 witness at the concrete two-field specification. -/
theorem get_memoizes_witness :
    (objGet exSpec "f" = some (fun _ => Except.ok (some 1)) ∧
      (fun (_ : Unit) => (Except.ok (some 1) : Except Unit (Option Nat))) ()
        = Except.ok (some 1)) ∧
    ((handlers.get (mapping exSpec ()) "f").1 = Except.ok (some 1) ∧
      (handlers.get (handlers.get (mapping exSpec ()) "f").2.1 "f").1
        = Except.ok (some 1) ∧
      (handlers.get (mapping exSpec ()) "f").2.2
        ++ (handlers.get (handlers.get (mapping exSpec ()) "f").2.1 "f").2.2
        = ["f"] ∧
      (∀ (t : ProxyTarget Unit Nat Unit) (ops : List (Op Nat)),
        t.spec = exSpec → t.source = () → Op.del "f" ∉ ops →
        (run t ops).2.count "f" ≤ 1)) :=
  ⟨⟨rfl, rfl⟩,
    get_memoizes exSpec () "f" (fun _ => Except.ok (some 1)) (some 1) rfl rfl⟩

/-- Claim C7 witness at the concrete two-field specification. -/
theorem has_describe_ignore_tombstones_witness :
    objHas (mapping exSpec ()).spec "f" = true ∧
    (handlers.has (handlers.deleteProperty (mapping exSpec ()) "f").1 "f" = true ∧
      handlers.getOwnPropertyDescriptor
          (handlers.deleteProperty (mapping exSpec ()) "f").1 "f"
        = some { value := none, enumerable := true, writable := true,
                 configurable := true } ∧
      (handlers.get (handlers.deleteProperty (mapping exSpec ()) "f").1 "f").1
        = Except.ok none ∧
      (handlers.get (handlers.deleteProperty (mapping exSpec ()) "f").1 "f").2.2
        = [] ∧
      (∀ (d : List String) (k' : String),
        handlers.has { mapping exSpec () with deletedKeys := d } k'
          = handlers.has (mapping exSpec ()) k') ∧
      (∀ (d : List String) (k' : String),
        handlers.getOwnPropertyDescriptor
            { mapping exSpec () with deletedKeys := d } k'
          = handlers.getOwnPropertyDescriptor (mapping exSpec ()) k')) :=
  ⟨rfl, has_describe_ignore_tombstones (mapping exSpec ()) "f" rfl⟩

/-- Claim C8: `ownKeys` (the enumerate operation) is a pure function of
the current state — recomputed on each call and, by construction, invoking
no compute function — returning exactly the deduplicated union of
specification keys and store keys minus the tombstoned names: membership
is characterized by the first conjunct, the result has no duplicates, and
it splits as the deduplicated non-tombstoned specification keys followed
by the store-only expando keys (the last conjunct characterizes those as
exactly the store keys not in the specification). -/
theorem ownKeys_enumeration (t : ProxyTarget From V E) :
    (∀ k : String, k ∈ handlers.ownKeys t ↔
      ((objHas t.spec k = true ∨ objHas t.store k = true) ∧
        setHas t.deletedKeys k = false)) ∧
    (handlers.ownKeys t).Nodup ∧
    handlers.ownKeys t
      = (dedupFirst (objKeys t.spec)).filter (fun k => !setHas t.deletedKeys k)
        ++ (dedupFirstAux (objKeys t.spec) (objKeys t.store)).filter
            (fun k => !setHas t.deletedKeys k) ∧
    (∀ k : String, k ∈ dedupFirstAux (objKeys t.spec) (objKeys t.store) ↔
      (objHas t.store k = true ∧ objHas t.spec k = false)) := by
  have hok : handlers.ownKeys t
      = (dedupFirst (objKeys t.spec ++ objKeys t.store)).filter
          (fun key => !setHas t.deletedKeys key) := rfl
  refine ⟨?_, ?_, ?_, ?_⟩
  · intro k
    rw [hok, List.mem_filter, dedupFirst, mem_dedupFirstAux]
    simp only [List.mem_append, List.not_mem_nil, not_false_iff, and_true,
      Bool.not_eq_true']
    rw [objHas_iff_mem_objKeys, objHas_iff_mem_objKeys]
  · rw [hok]
    exact List.Nodup.filter _ (nodup_dedupFirstAux _ _)
  · rw [hok, dedupFirst, dedupFirstAux_append, List.append_nil,
      List.filter_append]
    rfl
  · intro k
    rw [mem_dedupFirstAux]
    simp only [← objHas_iff_mem_objKeys, Bool.not_eq_true]

/-- Claim C10: in every reachable record state the store keys and the
tombstone set are disjoint: construction starts both empty, `get` only
memoizes non-tombstoned names, `set` clears the tombstone before writing,
and `delete` clears the store entry when tombstoning. -/
theorem reachable_store_tombstones_disjoint (t : ProxyTarget From V E)
    (h : Reachable t) : storeTombDisjoint t = true := by
  obtain ⟨spec, source, ops, rfl⟩ := h
  rw [storeTombDisjoint_iff]
  apply run_preserves_disjoint
  intro k hk
  simp [mapping, proxyFactory, objHas, objGet] at hk

/-- Claim C10 witness at a concrete reachable state. -/
theorem reachable_store_tombstones_disjoint_witness :
    Reachable (run (mapping exSpec ())
      [Op.set "a" (some 5), Op.del "g", Op.get "f"]).1 ∧
    storeTombDisjoint (run (mapping exSpec ())
      [Op.set "a" (some 5), Op.del "g", Op.get "f"]).1 = true :=
  ⟨⟨exSpec, (), [Op.set "a" (some 5), Op.del "g", Op.get "f"], rfl⟩,
    reachable_store_tombstones_disjoint _
      ⟨exSpec, (), [Op.set "a" (some 5), Op.del "g", Op.get "f"], rfl⟩⟩

end ClaimTheorems

end LazyMap
